import Mathlib

/-!
Verification of the frame-compositing and batch-processing core of
`video_editor.py` (class `VideoProcessor`).

Pixel channel values are modelled as rationals; the arrays produced by the
code hold 8-bit unsigned integers, so the places where numpy casts a float
result back to `uint8` are modelled by an explicit integer floor
(the values involved are nonnegative, where C truncation and floor agree).
Images are total functions from (row, column, channel) to a value; the
array extent of each concrete array in the code is recorded in the guards
of the corresponding definition.
-/

set_option maxHeartbeats 1000000

namespace VideoEditor

/-- Pixel grid: row → column → channel → value. -/
abbrev Image := Nat → Nat → Nat → ℚ

/-- Decoded raster with explicit dimensions and channel count
(3 = RGB, 4 = RGBA), as produced by `ImageClip(...).get_frame(0)`. -/
structure Bitmap where
  h : Nat
  w : Nat
  channels : Nat
  px : Nat → Nat → Nat → ℚ

/-- Every sample of the bitmap is an integer (true of any `uint8` array). -/
def IntValued (b : Bitmap) : Prop :=
  ∀ r c ch, ∃ z : ℤ, b.px r c ch = (z : ℚ)

/-- Every sample of the bitmap lies in the `uint8` range `[0, 255]`. -/
def Uint8 (b : Bitmap) : Prop :=
  ∀ r c ch, ∃ n : ℕ, n ≤ 255 ∧ b.px r c ch = (n : ℚ)

/-- Vertical offset clamp `offset = min(self.offset, video_height - 10)`
(video_editor.py line 118 and line 260). -/
def clampedOffset (H : Nat) (o : Int) : Int :=
  min o ((H : Int) - 10)

/-- Start index denoted by a (possibly negative) Python slice bound `o`
on an axis of length `H`: negative indices count from the end, and the
result is clamped into `[0, H]`. -/
def sliceStart (H : Nat) (o : Int) : Nat :=
  if o < 0 then ((H : Int) + o).toNat else min o.toNat H

/-- Shift step of `process_preview` (video_editor.py lines 115-120):
`moved_frame = np.zeros_like(background)` followed by
`moved_frame[offset:, :] = frame[:video_height-offset, :]`.
The numpy assignment raises a `ValueError` when the two slices disagree
in length, which is modelled by `none`. -/
def movedFrame (H W : Nat) (frame : Image) (o : Int) : Option Image :=
  if H - sliceStart H (clampedOffset H o) = min ((H : Int) - clampedOffset H o).toNat H then
    some (fun r c ch =>
      if sliceStart H (clampedOffset H o) ≤ r ∧ r < H ∧ c < W ∧ ch < 3 then
        frame (r - sliceStart H (clampedOffset H o)) c ch
      else 0)
  else none

/-- Sample a bitmap at signed coordinates, clamping into the valid index
range (the border-replication used by `cv2.resize` at the edges). -/
def sampleClamped (b : Bitmap) (r c : Int) (ch : Nat) : ℚ :=
  b.px (min (max r 0) ((b.h : Int) - 1)).toNat (min (max c 0) ((b.w : Int) - 1)).toNat ch

/-- Linear interpolation with weight `t` between `a` and `b`. -/
def lerp (t a b : ℚ) : ℚ := (1 - t) * a + t * b

/-- Source coordinate sampled for destination index `dst` when an axis of
length `srcLen` is resized to length `dstLen` (the half-pixel-centre
mapping of `cv2.resize`). -/
def srcCoord (dst srcLen dstLen : Nat) : ℚ :=
  (((dst : ℚ) + 1/2) * (srcLen : ℚ)) / (dstLen : ℚ) - 1/2

/-- Bilinear interpolation of a bitmap at fractional source coordinates
`(fy, fx)`. -/
def bilinearAt (b : Bitmap) (fy fx : ℚ) (ch : Nat) : ℚ :=
  lerp (fy - (⌊fy⌋ : ℚ))
    (lerp (fx - (⌊fx⌋ : ℚ)) (sampleClamped b ⌊fy⌋ ⌊fx⌋ ch)
      (sampleClamped b ⌊fy⌋ (⌊fx⌋ + 1) ch))
    (lerp (fx - (⌊fx⌋ : ℚ)) (sampleClamped b (⌊fy⌋ + 1) ⌊fx⌋ ch)
      (sampleClamped b (⌊fy⌋ + 1) (⌊fx⌋ + 1) ch))

/-- Bilinear image resize with half-pixel-centre coordinate mapping, the
semantics of `cv2.resize(img, (w, h))` with its default `INTER_LINEAR`
interpolation; arithmetic is exact over ℚ with a final rounding to an
integer sample (the `uint8` result of resizing a `uint8` array). -/
def resizeBilinear (b : Bitmap) (w h : Nat) : Bitmap :=
  ⟨h, w, b.channels, fun i j ch =>
    ((round (bilinearAt b (srcCoord i b.h h) (srcCoord j b.w w) ch) : ℤ) : ℚ)⟩

/-- Clamp of a negative placement coordinate,
`if x_pos < 0: x_pos = 0` (video_editor.py lines 142-143). -/
def posClamped (x : Int) : Int := if x < 0 then 0 else x

/-- Effective overlay extent after the edge check
`if x_pos + img_w > video_width: img_w = video_width - x_pos`
(video_editor.py lines 144-145), given the frame extent `M`, the clamped
position `pos` and the bitmap extent `d`. -/
def effDim (M : Nat) (pos : Int) (d : Nat) : Int :=
  if pos + (d : Int) > (M : Int) then (M : Int) - pos else (d : Int)

/-- Write rectangle of an overlay: the pixels of the frame covered by the
slice assignment `moved_frame[y_pos:y_pos+img_h, x_pos:x_pos+img_w, ...]`
after clamping (`ch < 3` records that only the colour channels of the
3-channel frame exist). -/
abbrev inRect (H W : Nat) (bmp : Bitmap) (x y : Int) (r c ch : Nat) : Prop :=
  (posClamped y).toNat ≤ r ∧ r < (posClamped y).toNat + (effDim H (posClamped y) bmp.h).toNat ∧
  (posClamped x).toNat ≤ c ∧ c < (posClamped x).toNat + (effDim W (posClamped x) bmp.w).toNat ∧
  ch < 3

/-- Bitmap actually composited: the loaded bitmap re-resized by
`cv2.resize(imgN_array, (img_w, img_h))` to the clamped extent
(video_editor.py lines 149-150). -/
def ovResized (H W : Nat) (bmp : Bitmap) (x y : Int) : Bitmap :=
  resizeBilinear bmp (effDim W (posClamped x) bmp.w).toNat (effDim H (posClamped y) bmp.h).toNat

/-- Alpha blend of one channel sample,
`moved_frame[...]*(1-alpha) + img[...]*alpha` followed by the `uint8`
cast of the numpy store (floor of the nonnegative float). -/
def blendPx (under fg a : ℚ) : ℚ :=
  ((⌊under * (1 - a) + fg * a⌋ : ℤ) : ℚ)

/-- Overlay placement step of `process_preview`
(video_editor.py lines 137-160): clamp the position into the frame, shrink
the extent at the right/bottom edge, skip when the clamped extent is not
positive, otherwise `cv2.resize` the bitmap to the clamped extent and
either alpha-blend it (4-channel bitmap) or copy its first three channels
opaquely over the rectangle. -/
def overlayStep (H W : Nat) (frame : Image) (bmp : Bitmap) (x y : Int) : Image :=
  if 0 < effDim W (posClamped x) bmp.w ∧ 0 < effDim H (posClamped y) bmp.h then
    fun r c ch =>
      if inRect H W bmp x y r c ch then
        if (ovResized H W bmp x y).channels = 4 then
          blendPx (frame r c ch)
            ((ovResized H W bmp x y).px (r - (posClamped y).toNat) (c - (posClamped x).toNat) ch)
            ((ovResized H W bmp x y).px (r - (posClamped y).toNat) (c - (posClamped x).toNat) 3 / 255)
        else
          (ovResized H W bmp x y).px (r - (posClamped y).toNat) (c - (posClamped x).toNat) ch
      else frame r c ch
  else frame

/-- Cropping alternative to `overlayStep` that the implicit claim about
edge shrinking contrasts with: instead of resizing the whole bitmap to the
clamped extent, place only its top-left portion. -/
def overlayStepCropped (H W : Nat) (frame : Image) (bmp : Bitmap) (x y : Int) : Image :=
  if 0 < effDim W (posClamped x) bmp.w ∧ 0 < effDim H (posClamped y) bmp.h then
    fun r c ch =>
      if inRect H W bmp x y r c ch then
        if bmp.channels = 4 then
          blendPx (frame r c ch)
            (bmp.px (r - (posClamped y).toNat) (c - (posClamped x).toNat) ch)
            (bmp.px (r - (posClamped y).toNat) (c - (posClamped x).toNat) 3 / 255)
        else
          bmp.px (r - (posClamped y).toNat) (c - (posClamped x).toNat) ch
      else frame r c ch
  else frame

/-- Parameters of one header image as passed to `VideoProcessor.__init__`:
path (possibly `None`), placement coordinates, scale. -/
structure OverlayCfg where
  path : Option String
  x : Int
  y : Int

/-- Body of one overlay `try:` block of `process_preview`
(video_editor.py lines 123-163 resp. 168-208).  The path guard
`if self.header_imgN_path and os.path.exists(self.header_imgN_path)`
skips the overlay when the path is `None`, empty, or names no existing
file.  `load` models `ImageClip(path)`, the width-proportional
`resize(width=video_width*scale)` and `get_frame(0)` of the external
library, returning the decoded, width-resized pixel array or raising
(`Except.error`); any exception inside the block is modelled as a `load`
failure, since the in-frame compositing arithmetic itself is total. -/
def overlayBlock (H W : Nat) (frame : Image) (cfg : OverlayCfg)
    (fsExists : String → Bool) (load : String → Except Unit Bitmap) :
    Except Unit Image :=
  match cfg.path with
  | none => Except.ok frame
  | some p =>
    if p = "" then Except.ok frame
    else if fsExists p then
      (load p).map (fun bmp => overlayStep H W frame bmp cfg.x cfg.y)
    else Except.ok frame

/-- Effect of the `except Exception as e:` handler around an overlay block
(video_editor.py lines 164-165, 209-210): the exception is reported as a
log line and the frame computed so far is kept. -/
def recoverOverlay (frame : Image) (r : Except Unit Image) : Image :=
  match r with
  | Except.ok g => g
  | Except.error _ => frame

/-- Preview transform of `process_preview` (video_editor.py lines
114-213): shift the frame down, apply overlay 1 then overlay 2 each in
its own recovering block, and emit the result once (`none` models the
path where the shift itself raises, so the outer handler at line 218
swallows the exception and no preview frame is emitted). -/
def previewFrame (H W : Nat) (frame : Image) (o : Int)
    (cfg1 cfg2 : OverlayCfg) (fsExists : String → Bool)
    (load : String → Except Unit Bitmap) : Option Image :=
  match movedFrame H W frame o with
  | none => none
  | some mf =>
    let f1 := recoverOverlay mf (overlayBlock H W mf cfg1 fsExists load)
    let f2 := recoverOverlay f1 (overlayBlock H W f1 cfg2 fsExists load)
    some f2

/-- Frame-compositor transform on a frame and a list of successfully
loaded, width-resized overlay bitmaps with their placement coordinates:
the shift of `process_preview` followed by one `overlayStep` per overlay,
in order. -/
def previewComposite (H W : Nat) (frame : Image) (o : Int)
    (ovs : List (Bitmap × Int × Int)) : Option Image :=
  (movedFrame H W frame o).map
    (fun mf => ovs.foldl (fun f ov => overlayStep H W f ov.1 ov.2.1 ov.2.2) mf)

/-- Positioned layer of the external library's declarative composition
(`set_position` on a clip). -/
structure Layer where
  bmp : Bitmap
  x : Int
  y : Int

/-- Modelled from the spec: drawing one positioned layer of the external
library's declarative clip-composition model over an image — the layer is
placed at its (possibly negative) position, cropped at the frame bounds,
and alpha-blended when it carries a mask (4th channel), else copied
opaquely.  Quantization follows the Frame Compositor blend of §4.1. -/
def blit (H W : Nat) (under : Image) (L : Layer) : Image :=
  fun r c ch =>
    if r < H ∧ c < W ∧ ch < 3 ∧ L.y ≤ (r : Int) ∧ (r : Int) < L.y + L.bmp.h ∧
        L.x ≤ (c : Int) ∧ (c : Int) < L.x + L.bmp.w then
      let rr := ((r : Int) - L.y).toNat
      let cc := ((c : Int) - L.x).toNat
      if L.bmp.channels = 4 then
        let a : ℚ := L.bmp.px rr cc 3 / 255
        ((⌊under r c ch * (1 - a) + L.bmp.px rr cc ch * a⌋ : ℤ) : ℚ)
      else L.bmp.px rr cc ch
    else under r c ch

/-- Modelled from the spec: rendering a stack of layers over the black
`ColorClip` background, as `CompositeVideoClip` does, bottom layer
first. -/
def renderLayers (H W : Nat) (layers : List Layer) : Image :=
  layers.foldl (blit H W) (fun _ _ _ => 0)

/-- One rendered frame of the export composite built by `process_videos`
(video_editor.py lines 255-297): black background, the video frame as a
layer positioned at `(0, min(offset, H-10))` (lines 260-261), then one
layer per overlay bitmap at its configured position. -/
def exportFrame (H W : Nat) (frame : Image) (o : Int) (ovs : List (Bitmap × Int × Int)) :
    Image :=
  renderLayers H W
    (Layer.mk (Bitmap.mk H W 3 frame) 0 (clampedOffset H o) ::
      ovs.map (fun ov => Layer.mk ov.1 ov.2.1 ov.2.2))

/-- Last component of a path, `os.path.basename` (separator modelled as
`/`). -/
def basename (p : String) : String :=
  (p.splitOn "/").getLastD ""

/-- Index of the last occurrence of a dot in a character list, if any. -/
def lastDotIdx : List Char → Option Nat
  | [] => none
  | c :: cs =>
    match lastDotIdx cs with
    | some i => some (i + 1)
    | none => if c = '.' then some 0 else none

/-- Core of Python `os.path.splitext` on the characters of a bare file
name: split at the last dot, unless every character before that dot is
itself a dot (a leading-dot name such as `.bashrc` has no extension). -/
def splitextL (cs : List Char) : List Char × List Char :=
  match lastDotIdx cs with
  | none => (cs, [])
  | some i =>
    if (cs.take i).all (fun c => c = '.') then (cs, [])
    else (cs.take i, cs.drop i)

/-- Python `os.path.splitext` on a bare file name. -/
def splitext (b : String) : String × String :=
  (String.mk (splitextL b.toList).1, String.mk (splitextL b.toList).2)

/-- Output file name built at video_editor.py lines 300-302:
`f"{name}_processed{ext}"` from `os.path.splitext(os.path.basename(p))`. -/
def outputFileName (videoPath : String) : String :=
  (splitext (basename videoPath)).1 ++ "_processed" ++ (splitext (basename videoPath)).2

/-- Full output path `os.path.join(self.output_dir, ...)`
(video_editor.py line 302). -/
def outputPath (outDir videoPath : String) : String :=
  outDir ++ "/" ++ outputFileName videoPath

/-- Arguments of the `final_clip.write_videofile(...)` call
(video_editor.py lines 306-316) that the claims mention. -/
structure WriteCall where
  file : String
  codec : String
  audioCodec : String
  fps : ℚ
deriving DecidableEq

/-- Externally observable events emitted by `process_videos`:
`progress` is `progress_updated.emit`, `info` an informational
`error_occurred.emit` line, `itemError` the per-item `except` handler log
carrying the failing file name (line 325), `wrote` the side effect of
`write_videofile`, `cancelled` the `"用户中断处理"` report (line 237), and
`finished` the `processing_finished.emit` summary carrying the attempted
total (line 330). -/
inductive BatchEvent where
  | progress (n : Nat)
  | info (msg : String)
  | itemError (name : String)
  | wrote (call : WriteCall)
  | cancelled
  | finished (total : Nat)
deriving DecidableEq

/-- Events of one loop iteration that passed the cancellation poll
(video_editor.py lines 240-326): the progress report `int(idx/total*100)`,
the informational line naming the file, then either the write side effect
(success) or the handler's error log with the failing file's basename. -/
def itemChunk (ok : Nat → Bool) (fpsOf : Nat → ℚ) (outDir : String)
    (total idx : Nat) (f : String) : List BatchEvent :=
  BatchEvent.progress (idx * 100 / total) ::
  BatchEvent.info (basename f) ::
  (if ok idx then
    [BatchEvent.wrote (WriteCall.mk (outputPath outDir f) "libx264" "aac" (fpsOf idx))]
  else [BatchEvent.itemError (basename f)])

/-- Per-item loop of `process_videos` (video_editor.py lines 235-330).
`stopAt i` is the value of `self.stopped()` at the poll before item `i`;
`ok i` tells whether the body of item `i`'s `try:` completes (decode,
composite and write all succeed); `fpsOf i` is the source clip frame rate
`video_clip.fps` passed to `write_videofile`.  After the loop the progress
is forced to 100 and the summary with the attempted total is emitted. -/
def runItems (stopAt : Nat → Bool) (ok : Nat → Bool) (fpsOf : Nat → ℚ)
    (outDir : String) (total : Nat) : Nat → List String → List BatchEvent
  | _, [] => [BatchEvent.progress 100, BatchEvent.finished total]
  | idx, f :: fs =>
    if stopAt idx then [BatchEvent.cancelled]
    else
      itemChunk ok fpsOf outDir total idx f ++
      runItems stopAt ok fpsOf outDir total (idx + 1) fs

/-- Entry of `process_videos` (video_editor.py lines 222-330): reject an
empty file list or a missing output directory up front, else run the
per-item loop from index 0. -/
def processVideos (files : List String) (outDir : Option String)
    (stopAt : Nat → Bool) (ok : Nat → Bool) (fpsOf : Nat → ℚ) : List BatchEvent :=
  if files.isEmpty then [BatchEvent.info "no-files"]
  else
    match outDir with
    | none => [BatchEvent.info "no-output-dir"]
    | some d => runItems stopAt ok fpsOf d files.length 0 files

/-- Concatenation of the item chunks for `fs`, starting at index `idx` —
the events of an uncancelled run of the loop body over `fs`, without the
trailing progress/summary events. -/
def chunksFrom (ok : Nat → Bool) (fpsOf : Nat → ℚ) (outDir : String)
    (total : Nat) : Nat → List String → List BatchEvent
  | _, [] => []
  | idx, f :: fs =>
    itemChunk ok fpsOf outDir total idx f ++ chunksFrom ok fpsOf outDir total (idx + 1) fs

/-- Write side effects an uncancelled run performs for the items of `fs`
starting at index `idx`: one per successful item, in input order. -/
def expectedWrites (ok : Nat → Bool) (fpsOf : Nat → ℚ) (outDir : String) :
    Nat → List String → List WriteCall
  | _, [] => []
  | idx, f :: fs =>
    (if ok idx then [WriteCall.mk (outputPath outDir f) "libx264" "aac" (fpsOf idx)] else []) ++
    expectedWrites ok fpsOf outDir (idx + 1) fs

/-- Sequence of write side effects among a list of events, in order. -/
def writesOf (evs : List BatchEvent) : List WriteCall :=
  evs.filterMap (fun e =>
    match e with
    | BatchEvent.wrote c => some c
    | _ => none)

/-- Sequence of reported progress percentages, in order. -/
def progressOf (evs : List BatchEvent) : List Nat :=
  evs.filterMap (fun e =>
    match e with
    | BatchEvent.progress n => some n
    | _ => none)

/-- RGBA test bitmap: a single pixel with colour 20 and alpha 255. -/
def alphaBmp : Bitmap := ⟨1, 1, 4, fun _ _ ch => if ch = 3 then 255 else 20⟩

/-- Constant test frame of value 10. -/
def flatTen : Image := fun _ _ _ => 10

/-- Configurations whose path guard
`if self.header_imgN_path and os.path.exists(...)` is false: path `None`,
empty path, or a path naming no existing file. -/
def NoopPath (cfg : OverlayCfg) (fsExists : String → Bool) : Prop :=
  cfg.path = none ∨ cfg.path = some "" ∨ ∀ p, cfg.path = some p → fsExists p = false

/-- RGB test bitmap, one row of two columns with values 0 and 200. -/
def cexBmp : Bitmap := ⟨1, 2, 3, fun _ c _ => if c = 0 then 0 else 200⟩

/-- Black test frame. -/
def cexFrame : Image := fun _ _ _ => 0

/-- RGB single-pixel test bitmap of value 9. -/
def smallBmp : Bitmap := ⟨1, 1, 3, fun _ _ _ => 9⟩

/-! ### Shift lemmas -/

lemma clampedOffset_nonneg (H : Nat) (o : Int) (hH : 10 ≤ H) (ho : 0 ≤ o) :
    0 ≤ clampedOffset H o := by
  unfold clampedOffset; omega

lemma clampedOffset_le (H : Nat) (o : Int) : clampedOffset H o ≤ (H : Int) - 10 := by
  unfold clampedOffset; omega

lemma sliceStart_clamped (H : Nat) (o : Int) (hH : 10 ≤ H) (ho : 0 ≤ o) :
    sliceStart H (clampedOffset H o) = (clampedOffset H o).toNat := by
  unfold sliceStart clampedOffset
  split <;> omega

lemma movedFrame_eq (H W : Nat) (frame : Image) (o : Int) (hH : 10 ≤ H) (ho : 0 ≤ o) :
    movedFrame H W frame o =
      some (fun r c ch =>
        if (clampedOffset H o).toNat ≤ r ∧ r < H ∧ c < W ∧ ch < 3 then
          frame (r - (clampedOffset H o).toNat) c ch
        else 0) := by
  unfold movedFrame
  rw [sliceStart_clamped H o hH ho]
  rw [if_pos]
  have h0 := clampedOffset_nonneg H o hH ho
  have h1 := clampedOffset_le H o
  omega

/-- C1 (amended with `10 ≤ H`): for a source frame of height `H ≥ 10` and
width `W` and a vertical offset `0 ≤ o`, with `o' = min(o, H−10)`, the
shift step produces a frame (same dimensions) whose rows `[0, o')` are
black and whose rows `[o', H)` equal rows `[0, H−o')` of the source. -/
theorem frame_shift_spec (H W : Nat) (frame : Image) (o : Int)
    (hH : 10 ≤ H) (ho : 0 ≤ o) :
    ∃ out, movedFrame H W frame o = some out ∧
      (∀ r c ch, r < (clampedOffset H o).toNat → out r c ch = 0) ∧
      (∀ r c ch, (clampedOffset H o).toNat ≤ r → r < H → c < W → ch < 3 →
        out r c ch = frame (r - (clampedOffset H o).toNat) c ch) ∧
      0 ≤ clampedOffset H o ∧ clampedOffset H o ≤ (H : Int) - 10 := by
  refine ⟨_, movedFrame_eq H W frame o hH ho, ?_, ?_,
    clampedOffset_nonneg H o hH ho, clampedOffset_le H o⟩
  · intro r c ch hr
    rw [if_neg]
    omega
  · intro r c ch h1 h2 h3 h4
    rw [if_pos]
    exact ⟨h1, h2, h3, h4⟩

/-- Witness for `frame_shift_spec` at `H = 12`, `W = 2`, `o = 3`
(the clamp gives `o' = min(3, 2) = 2`). -/
theorem frame_shift_spec_witness :
    (10 ≤ 12) ∧ (0 ≤ (3 : Int)) ∧
    (∃ out, movedFrame 12 2 (fun r _ _ => (r : ℚ)) 3 = some out ∧
      (∀ r c ch, r < (clampedOffset 12 3).toNat → out r c ch = 0) ∧
      (∀ r c ch, (clampedOffset 12 3).toNat ≤ r → r < 12 → c < 2 → ch < 3 →
        out r c ch = ((r - (clampedOffset 12 3).toNat : Nat) : ℚ)) ∧
      0 ≤ clampedOffset 12 3 ∧ clampedOffset 12 3 ≤ (12 : Int) - 10) :=
  ⟨by norm_num, by norm_num,
    frame_shift_spec 12 2 (fun r _ _ => (r : ℚ)) 3 (by norm_num) (by norm_num)⟩

/-- C1 counterexample: the claim as stated quantifies over every frame
height; at `H = 6`, `W = 1`, `o = 0` the clamp makes the offset negative
(`min(0, 6−10) = −4`), the numpy slice assignment
`moved_frame[-4:, :] = frame[:10, :]` pairs a 4-row destination with a
6-row source and raises `ValueError`, so no output frame with the claimed
dimensions and rows exists. -/
theorem frame_shift_counterexample :
    movedFrame 6 1 (fun _ _ _ => 0) 0 = none := rfl

/-! ### Overlay clamping lemmas -/

lemma inRect_subset (H W : Nat) (bmp : Bitmap) (x y : Int) (r c ch : Nat)
    (h : inRect H W bmp x y r c ch) : r < H ∧ c < W := by
  unfold inRect effDim posClamped at h
  split_ifs at h <;> omega

lemma overlayStep_skip (H W : Nat) (frame : Image) (bmp : Bitmap) (x y : Int)
    (h : effDim W (posClamped x) bmp.w ≤ 0 ∨ effDim H (posClamped y) bmp.h ≤ 0) :
    overlayStep H W frame bmp x y = frame := by
  unfold overlayStep
  rw [if_neg]
  omega

lemma overlayStep_outside (H W : Nat) (frame : Image) (bmp : Bitmap) (x y : Int)
    (r c ch : Nat) (h : ¬ inRect H W bmp x y r c ch) :
    overlayStep H W frame bmp x y r c ch = frame r c ch := by
  unfold overlayStep
  split
  · simp only [if_neg h]
  · rfl

/-- C2: overlay placement clamping is safe — negative positions are
clamped to 0, a positive clamped extent keeps the whole write rectangle
inside `[0,W) × [0,H)`, pixels outside the rectangle (in particular every
pixel outside the frame) are untouched, and a non-positive clamped extent
skips the overlay entirely, returning the frame unchanged (no failure is
even representable in the placement step). -/
theorem overlay_clamp_safe (H W : Nat) (frame : Image) (bmp : Bitmap) (x y : Int) :
    (0 ≤ posClamped x ∧ 0 ≤ posClamped y ∧
      (x < 0 → posClamped x = 0) ∧ (y < 0 → posClamped y = 0)) ∧
    ((0 < effDim W (posClamped x) bmp.w →
        (posClamped x).toNat + (effDim W (posClamped x) bmp.w).toNat ≤ W) ∧
     (0 < effDim H (posClamped y) bmp.h →
        (posClamped y).toNat + (effDim H (posClamped y) bmp.h).toNat ≤ H)) ∧
    (∀ r c ch, ¬ inRect H W bmp x y r c ch →
      overlayStep H W frame bmp x y r c ch = frame r c ch) ∧
    (∀ r c ch, H ≤ r ∨ W ≤ c →
      overlayStep H W frame bmp x y r c ch = frame r c ch) ∧
    (effDim W (posClamped x) bmp.w ≤ 0 ∨ effDim H (posClamped y) bmp.h ≤ 0 →
      overlayStep H W frame bmp x y = frame) := by
  refine ⟨?_, ?_, overlayStep_outside H W frame bmp x y, ?_, overlayStep_skip H W frame bmp x y⟩
  · unfold posClamped
    split_ifs <;> omega
  · constructor
    · unfold effDim posClamped
      split_ifs <;> omega
    · unfold effDim posClamped
      split_ifs <;> omega
  · intro r c ch h
    refine overlayStep_outside H W frame bmp x y r c ch (fun hin => ?_)
    have := inRect_subset H W bmp x y r c ch hin
    omega

/-- Witness for `overlay_clamp_safe`: a 2×2 bitmap placed at `(9, -1)`
over a 5×5 frame is clamped to width `5 - 9 < 0` and skipped, leaving the
frame untouched. -/
theorem overlay_clamp_safe_witness :
    (effDim 5 (posClamped 9) (Bitmap.mk 2 2 3 fun _ _ _ => 7).w ≤ 0 ∨
      effDim 5 (posClamped (-1)) (Bitmap.mk 2 2 3 fun _ _ _ => 7).h ≤ 0) ∧
    overlayStep 5 5 (fun _ _ _ => 1) (Bitmap.mk 2 2 3 fun _ _ _ => 7) 9 (-1) =
      (fun _ _ _ => 1) :=
  ⟨by decide,
    (overlay_clamp_safe 5 5 (fun _ _ _ => 1) (Bitmap.mk 2 2 3 fun _ _ _ => 7) 9 (-1)).2.2.2.2
      (by decide)⟩

/-! ### Resize identity lemmas -/

lemma Uint8.intValued {b : Bitmap} (h : Uint8 b) : IntValued b := by
  intro r c ch
  obtain ⟨n, _, hn⟩ := h r c ch
  exact ⟨(n : ℤ), by rw [hn]; norm_cast⟩

lemma sampleClamped_eq (b : Bitmap) (i j ch : Nat) (hi : i < b.h) (hj : j < b.w) :
    sampleClamped b (i : Int) (j : Int) ch = b.px i j ch := by
  unfold sampleClamped
  have h1 : (min (max (i : Int) 0) ((b.h : Int) - 1)).toNat = i := by omega
  have h2 : (min (max (j : Int) 0) ((b.w : Int) - 1)).toNat = j := by omega
  rw [h1, h2]

lemma srcCoord_self (d L : Nat) (hL : 0 < L) : srcCoord d L L = (d : ℚ) := by
  unfold srcCoord
  have hL0 : (L : ℚ) ≠ 0 := Nat.cast_ne_zero.mpr hL.ne'
  rw [mul_div_assoc, div_self hL0, mul_one, add_sub_cancel_right]

lemma lerp_zero (a b : ℚ) : lerp 0 a b = a := by
  unfold lerp
  ring

lemma bilinearAt_nat (b : Bitmap) (i j ch : Nat) (hi : i < b.h) (hj : j < b.w) :
    bilinearAt b (i : ℚ) (j : ℚ) ch = b.px i j ch := by
  unfold bilinearAt
  simp only [Int.floor_natCast, Int.cast_natCast, sub_self, lerp_zero]
  exact sampleClamped_eq b i j ch hi hj

/-- Resizing a bitmap with integer samples to its own size is the
identity on every in-range sample. -/
lemma resizeBilinear_self (b : Bitmap) (hw : 0 < b.w) (hh : 0 < b.h)
    (hint : IntValued b) (i j ch : Nat) (hi : i < b.h) (hj : j < b.w) :
    (resizeBilinear b b.w b.h).px i j ch = b.px i j ch := by
  show ((round (bilinearAt b (srcCoord i b.h b.h) (srcCoord j b.w b.w) ch) : ℤ) : ℚ) = _
  rw [srcCoord_self i b.h hh, srcCoord_self j b.w hw, bilinearAt_nat b i j ch hi hj]
  obtain ⟨z, hz⟩ := hint i j ch
  rw [hz, round_intCast]

/-! ### In-bounds overlay placement -/

lemma posClamped_of_nonneg {x : Int} (hx : 0 ≤ x) : posClamped x = x := by
  unfold posClamped
  split_ifs <;> omega

lemma effDim_of_fit {M : Nat} {pos : Int} {d : Nat} (h : pos + (d : Int) ≤ (M : Int)) :
    effDim M pos d = (d : Int) := by
  unfold effDim
  split_ifs <;> omega

lemma ovResized_channels (H W : Nat) (bmp : Bitmap) (x y : Int) :
    (ovResized H W bmp x y).channels = bmp.channels := rfl

lemma ovResized_px_fit (H W : Nat) (bmp : Bitmap) (x y : Int)
    (hx : 0 ≤ x) (hy : 0 ≤ y) (hw : 0 < bmp.w) (hh : 0 < bmp.h)
    (hfx : x + (bmp.w : Int) ≤ (W : Int)) (hfy : y + (bmp.h : Int) ≤ (H : Int))
    (hint : IntValued bmp) (rr cc ch : Nat) (hrr : rr < bmp.h) (hcc : cc < bmp.w) :
    (ovResized H W bmp x y).px rr cc ch = bmp.px rr cc ch := by
  unfold ovResized
  rw [posClamped_of_nonneg hx, posClamped_of_nonneg hy,
    effDim_of_fit hfx, effDim_of_fit hfy, Int.toNat_natCast, Int.toNat_natCast]
  exact resizeBilinear_self bmp hw hh hint rr cc ch hrr hcc

/-- In-bounds placement (nonnegative position, rectangle inside the
frame): the overlay step writes exactly the rectangle
`[y, y+h) × [x, x+w)` with the bitmap's own samples (blended through its
alpha channel when it has one). -/
lemma overlayStep_fit (H W : Nat) (frame : Image) (bmp : Bitmap) (x y : Int)
    (hx : 0 ≤ x) (hy : 0 ≤ y) (hw : 0 < bmp.w) (hh : 0 < bmp.h)
    (hfx : x + (bmp.w : Int) ≤ (W : Int)) (hfy : y + (bmp.h : Int) ≤ (H : Int))
    (hint : IntValued bmp) (r c ch : Nat) :
    overlayStep H W frame bmp x y r c ch =
      if inRect H W bmp x y r c ch then
        if bmp.channels = 4 then
          blendPx (frame r c ch) (bmp.px (r - y.toNat) (c - x.toNat) ch)
            (bmp.px (r - y.toNat) (c - x.toNat) 3 / 255)
        else bmp.px (r - y.toNat) (c - x.toNat) ch
      else frame r c ch := by
  have hew : effDim W (posClamped x) bmp.w = (bmp.w : Int) := by
    rw [posClamped_of_nonneg hx]; exact effDim_of_fit hfx
  have heh : effDim H (posClamped y) bmp.h = (bmp.h : Int) := by
    rw [posClamped_of_nonneg hy]; exact effDim_of_fit hfy
  have hcond : 0 < effDim W (posClamped x) bmp.w ∧ 0 < effDim H (posClamped y) bmp.h := by
    rw [hew, heh]; exact ⟨by exact_mod_cast hw, by exact_mod_cast hh⟩
  simp only [overlayStep, if_pos hcond]
  by_cases hin : inRect H W bmp x y r c ch
  · rw [if_pos hin, if_pos hin, ovResized_channels]
    have hb : r - (posClamped y).toNat < bmp.h ∧ c - (posClamped x).toNat < bmp.w := by
      obtain ⟨h1, h2, h3, h4, h5⟩ := hin
      rw [heh] at h2
      rw [hew] at h4
      omega
    have hry : r - (posClamped y).toNat = r - y.toNat := by
      rw [posClamped_of_nonneg hy]
    have hcx : c - (posClamped x).toNat = c - x.toNat := by
      rw [posClamped_of_nonneg hx]
    rw [ovResized_px_fit H W bmp x y hx hy hw hh hfx hfy hint _ _ ch hb.1 hb.2,
      ovResized_px_fit H W bmp x y hx hy hw hh hfx hfy hint _ _ 3 hb.1 hb.2,
      hry, hcx]
  · rw [if_neg hin, if_neg hin]

/-- C3: alpha compositing for an in-bounds overlay of `uint8` samples —
(i) with an alpha channel every rectangle pixel becomes
`floor(bg*(1−α) + fg*α)` per colour channel, (ii) the per-pixel
`α = a/255` lies in `[0,1]`, (iii) `α = 1` everywhere reduces to the
opaque overwrite performed for a 3-channel bitmap with the same samples,
(iv) `α = 0` everywhere leaves the frame unchanged, and (v) a bitmap
without an alpha channel overwrites the rectangle opaquely. -/
theorem alpha_compositing_spec (H W : Nat) (frame : Image) (bmp : Bitmap) (x y : Int)
    (hx : 0 ≤ x) (hy : 0 ≤ y) (hw : 0 < bmp.w) (hh : 0 < bmp.h)
    (hfx : x + (bmp.w : Int) ≤ (W : Int)) (hfy : y + (bmp.h : Int) ≤ (H : Int))
    (hu8 : Uint8 bmp) (hfr : ∀ r c ch, ∃ z : ℤ, frame r c ch = (z : ℚ)) :
    (bmp.channels = 4 → ∀ r c ch, inRect H W bmp x y r c ch →
      overlayStep H W frame bmp x y r c ch =
        blendPx (frame r c ch) (bmp.px (r - y.toNat) (c - x.toNat) ch)
          (bmp.px (r - y.toNat) (c - x.toNat) 3 / 255)) ∧
    (∀ rr cc, 0 ≤ bmp.px rr cc 3 / 255 ∧ bmp.px rr cc 3 / 255 ≤ 1) ∧
    (bmp.channels = 4 → (∀ rr cc, rr < bmp.h → cc < bmp.w → bmp.px rr cc 3 = 255) →
      ∀ r c ch, overlayStep H W frame bmp x y r c ch =
        overlayStep H W frame (Bitmap.mk bmp.h bmp.w 3 bmp.px) x y r c ch) ∧
    (bmp.channels = 4 → (∀ rr cc, rr < bmp.h → cc < bmp.w → bmp.px rr cc 3 = 0) →
      ∀ r c ch, overlayStep H W frame bmp x y r c ch = frame r c ch) ∧
    (bmp.channels ≠ 4 → ∀ r c ch, inRect H W bmp x y r c ch →
      overlayStep H W frame bmp x y r c ch = bmp.px (r - y.toNat) (c - x.toNat) ch) := by
  have hint : IntValued bmp := hu8.intValued
  have hfit := overlayStep_fit H W frame bmp x y hx hy hw hh hfx hfy hint
  have hfit3 := overlayStep_fit H W frame (Bitmap.mk bmp.h bmp.w 3 bmp.px) x y
    hx hy hw hh hfx hfy hint
  have hrect : ∀ r c ch, inRect H W bmp x y r c ch →
      r - y.toNat < bmp.h ∧ c - x.toNat < bmp.w := by
    intro r c ch hin
    obtain ⟨h1, h2, h3, h4, h5⟩ := hin
    rw [posClamped_of_nonneg hy, effDim_of_fit hfy] at h2
    rw [posClamped_of_nonneg hx, effDim_of_fit hfx] at h4
    omega
  refine ⟨?_, ?_, ?_, ?_, ?_⟩
  · intro hch r c ch hin
    rw [hfit r c ch, if_pos hin, if_pos hch]
  · intro rr cc
    obtain ⟨n, hn255, hn⟩ := hu8 rr cc 3
    rw [hn]
    constructor
    · positivity
    · rw [div_le_one (by norm_num)]
      exact_mod_cast hn255
  · intro hch hα r c ch
    rw [hfit r c ch, hfit3 r c ch]
    by_cases hin : inRect H W bmp x y r c ch
    · rw [if_pos hin, if_pos hin, if_pos hch, if_neg (by norm_num)]
      obtain ⟨hrb, hcb⟩ := hrect r c ch hin
      rw [hα _ _ hrb hcb]
      obtain ⟨n, _, hn⟩ := hu8 (r - y.toNat) (c - x.toNat) ch
      unfold blendPx
      rw [hn]
      norm_num
    · rw [if_neg hin, if_neg hin]
  · intro hch hα r c ch
    rw [hfit r c ch]
    by_cases hin : inRect H W bmp x y r c ch
    · rw [if_pos hin, if_pos hch]
      obtain ⟨hrb, hcb⟩ := hrect r c ch hin
      rw [hα _ _ hrb hcb]
      obtain ⟨z, hz⟩ := hfr r c ch
      unfold blendPx
      rw [hz]
      norm_num
    · rw [if_neg hin]
  · intro hch r c ch hin
    rw [hfit r c ch, if_pos hin, if_neg hch]

/-- Witness for `alpha_compositing_spec`: the fully opaque single-pixel
RGBA bitmap placed at the origin of a 3×3 frame of value 10 yields
`floor(10*(1−1) + 20*1) = 20` at the covered pixel. -/
theorem alpha_compositing_spec_witness :
    overlayStep 3 3 flatTen alphaBmp 0 0 0 0 0 = 20 := by
  have hu8 : Uint8 alphaBmp := by
    intro r c ch
    show ∃ n : ℕ, n ≤ 255 ∧ (if ch = 3 then (255 : ℚ) else 20) = (n : ℚ)
    split_ifs
    · exact ⟨255, by norm_num, by norm_num⟩
    · exact ⟨20, by norm_num, by norm_num⟩
  have h := alpha_compositing_spec 3 3 flatTen alphaBmp 0 0
    (by decide) (by decide) (by decide) (by decide) (by decide) (by decide)
    hu8 (fun _ _ _ => ⟨10, rfl⟩)
  have h2 := h.1 rfl 0 0 0 (by decide)
  rw [h2]
  norm_num [blendPx, alphaBmp, flatTen]

/-! ### No-op and failing overlays -/

lemma previewFrame_some (H W : Nat) (frame : Image) (o : Int)
    (cfg1 cfg2 : OverlayCfg) (fsExists : String → Bool)
    (load : String → Except Unit Bitmap) (mf : Image)
    (hmf : movedFrame H W frame o = some mf) :
    previewFrame H W frame o cfg1 cfg2 fsExists load =
      some (recoverOverlay
        (recoverOverlay mf (overlayBlock H W mf cfg1 fsExists load))
        (overlayBlock H W (recoverOverlay mf (overlayBlock H W mf cfg1 fsExists load))
          cfg2 fsExists load)) := by
  unfold previewFrame
  rw [hmf]

lemma overlayBlock_noop (H W : Nat) (frame : Image) (cfg : OverlayCfg)
    (fsExists : String → Bool) (load : String → Except Unit Bitmap)
    (h : NoopPath cfg fsExists) :
    overlayBlock H W frame cfg fsExists load = Except.ok frame := by
  unfold overlayBlock
  rcases h with h | h | h
  · rw [h]
  · rw [h]
    simp
  · cases hp : cfg.path with
    | none => rfl
    | some p =>
      by_cases he : p = ""
      · simp [he]
      · simp [he, h p hp]

/-- C4: a missing overlay (path `None`/empty or non-existent file) is
skipped without failing — replacing it by an absent overlay does not
change the emitted preview frame, and when both overlays are missing the
preview equals the shift-only result. -/
theorem noop_overlay_identity (H W : Nat) (frame : Image) (o : Int)
    (cfg1 cfg2 : OverlayCfg) (fsExists : String → Bool)
    (load : String → Except Unit Bitmap) :
    (NoopPath cfg1 fsExists →
      previewFrame H W frame o cfg1 cfg2 fsExists load =
        previewFrame H W frame o (OverlayCfg.mk none cfg1.x cfg1.y) cfg2 fsExists load) ∧
    (NoopPath cfg2 fsExists →
      previewFrame H W frame o cfg1 cfg2 fsExists load =
        previewFrame H W frame o cfg1 (OverlayCfg.mk none cfg2.x cfg2.y) fsExists load) ∧
    (NoopPath cfg1 fsExists → NoopPath cfg2 fsExists →
      previewFrame H W frame o cfg1 cfg2 fsExists load = movedFrame H W frame o) := by
  have hnone : ∀ (g : Image) (a b : Int),
      overlayBlock H W g (OverlayCfg.mk none a b) fsExists load = Except.ok g := by
    intro g a b
    rfl
  refine ⟨?_, ?_, ?_⟩
  · intro h1
    cases hm : movedFrame H W frame o with
    | none => unfold previewFrame; rw [hm]
    | some mf =>
      rw [previewFrame_some H W frame o cfg1 cfg2 fsExists load mf hm,
        previewFrame_some H W frame o (OverlayCfg.mk none cfg1.x cfg1.y) cfg2 fsExists load mf hm,
        overlayBlock_noop H W mf cfg1 fsExists load h1, hnone]
  · intro h2
    cases hm : movedFrame H W frame o with
    | none => unfold previewFrame; rw [hm]
    | some mf =>
      rw [previewFrame_some H W frame o cfg1 cfg2 fsExists load mf hm,
        previewFrame_some H W frame o cfg1 (OverlayCfg.mk none cfg2.x cfg2.y) fsExists load mf hm,
        overlayBlock_noop H W _ cfg2 fsExists load h2, hnone]
  · intro h1 h2
    cases hm : movedFrame H W frame o with
    | none => unfold previewFrame; rw [hm]
    | some mf =>
      rw [previewFrame_some H W frame o cfg1 cfg2 fsExists load mf hm,
        overlayBlock_noop H W mf cfg1 fsExists load h1]
      show some (recoverOverlay _ (overlayBlock H W mf cfg2 fsExists load)) = _
      rw [overlayBlock_noop H W mf cfg2 fsExists load h2]
      rfl

/-- Witness for `noop_overlay_identity`: a configuration pointing at a
non-existent file over an empty filesystem produces exactly the
shift-only preview. -/
theorem noop_overlay_identity_witness :
    previewFrame 10 1 (fun _ _ _ => 4) 0 (OverlayCfg.mk (some "a.png") 0 0)
        (OverlayCfg.mk none 0 0) (fun _ => false) (fun _ => Except.error ()) =
      movedFrame 10 1 (fun _ _ _ => 4) 0 :=
  (noop_overlay_identity 10 1 (fun _ _ _ => 4) 0 (OverlayCfg.mk (some "a.png") 0 0)
      (OverlayCfg.mk none 0 0) (fun _ => false) (fun _ => Except.error ())).2.2
    (Or.inr (Or.inr (fun _ _ => rfl))) (Or.inl rfl)

/-- C10: when the shift step succeeds, the preview frame is emitted
exactly once no matter how the overlay blocks behave, and an exception
inside an overlay block (modelled as a failing load of an existing path)
leaves the preview identical to the one with that overlay absent — an
overlay failure never suppresses the preview result. -/
theorem overlay_error_containment (H W : Nat) (frame : Image) (o : Int)
    (cfg1 cfg2 : OverlayCfg) (fsExists : String → Bool)
    (load : String → Except Unit Bitmap) (mf : Image)
    (hmf : movedFrame H W frame o = some mf) :
    (previewFrame H W frame o cfg1 cfg2 fsExists load).isSome = true ∧
    (∀ p, cfg1.path = some p → p ≠ "" → fsExists p = true → load p = Except.error () →
      previewFrame H W frame o cfg1 cfg2 fsExists load =
        previewFrame H W frame o (OverlayCfg.mk none cfg1.x cfg1.y) cfg2 fsExists load) ∧
    (∀ p, cfg2.path = some p → p ≠ "" → fsExists p = true → load p = Except.error () →
      previewFrame H W frame o cfg1 cfg2 fsExists load =
        previewFrame H W frame o cfg1 (OverlayCfg.mk none cfg2.x cfg2.y) fsExists load) := by
  have hfail : ∀ (g : Image) (cfg : OverlayCfg) p, cfg.path = some p → p ≠ "" →
      fsExists p = true → load p = Except.error () →
      recoverOverlay g (overlayBlock H W g cfg fsExists load) = g := by
    intro g cfg p hp hne hex hld
    unfold overlayBlock
    rw [hp]
    simp only [if_neg hne, hex, if_pos, hld]
    rfl
  refine ⟨?_, ?_, ?_⟩
  · rw [previewFrame_some H W frame o cfg1 cfg2 fsExists load mf hmf]
    rfl
  · intro p hp hne hex hld
    rw [previewFrame_some H W frame o cfg1 cfg2 fsExists load mf hmf,
      previewFrame_some H W frame o (OverlayCfg.mk none cfg1.x cfg1.y) cfg2 fsExists load mf hmf,
      hfail mf cfg1 p hp hne hex hld]
    rfl
  · intro p hp hne hex hld
    rw [previewFrame_some H W frame o cfg1 cfg2 fsExists load mf hmf,
      previewFrame_some H W frame o cfg1 (OverlayCfg.mk none cfg2.x cfg2.y) fsExists load mf hmf,
      hfail _ cfg2 p hp hne hex hld]
    rfl

/-- Witness for `overlay_error_containment`: with a failing load of the
existing file `"a.png"` as overlay 1, the preview is still emitted and
equals the preview without that overlay. -/
theorem overlay_error_containment_witness :
    (previewFrame 10 1 (fun _ _ _ => 4) 0 (OverlayCfg.mk (some "a.png") 0 0)
        (OverlayCfg.mk none 0 0) (fun _ => true) (fun _ => Except.error ())).isSome = true ∧
    previewFrame 10 1 (fun _ _ _ => 4) 0 (OverlayCfg.mk (some "a.png") 0 0)
        (OverlayCfg.mk none 0 0) (fun _ => true) (fun _ => Except.error ()) =
      previewFrame 10 1 (fun _ _ _ => 4) 0 (OverlayCfg.mk none 0 0)
        (OverlayCfg.mk none 0 0) (fun _ => true) (fun _ => Except.error ()) := by
  have h := overlay_error_containment 10 1 (fun _ _ _ => 4) 0
    (OverlayCfg.mk (some "a.png") 0 0) (OverlayCfg.mk none 0 0)
    (fun _ => true) (fun _ => Except.error ()) _ (movedFrame_eq 10 1 _ 0 (by norm_num) le_rfl)
  exact ⟨h.1, h.2.1 "a.png" rfl (by decide) rfl rfl⟩

/-! ### Edge shrinking: squash versus crop -/

lemma resize_cexBmp : (resizeBilinear cexBmp 1 1).px 0 0 0 = 100 := by
  show ((round (bilinearAt cexBmp (srcCoord 0 cexBmp.h 1) (srcCoord 0 cexBmp.w 1) 0) : ℤ) : ℚ) = 100
  have h1 : srcCoord 0 cexBmp.h 1 = 0 := by
    unfold srcCoord cexBmp
    norm_num
  have h2 : srcCoord 0 cexBmp.w 1 = 1 / 2 := by
    unfold srcCoord cexBmp
    norm_num
  rw [h1, h2]
  have h3 : bilinearAt cexBmp 0 (1 / 2) 0 = 100 := by
    unfold bilinearAt sampleClamped cexBmp lerp
    norm_num
  rw [h3]
  norm_num [round_eq]

lemma overlayStep_cexBmp (H : Nat) (hH : 0 < H) (frame : Image) :
    overlayStep H 4 frame cexBmp 3 0 0 3 0 = 100 := by
  have hew : effDim 4 (posClamped 3) cexBmp.w = 1 := by decide
  have heh : effDim H (posClamped 0) cexBmp.h = 1 := by
    show effDim H (posClamped 0) 1 = 1
    unfold effDim posClamped
    split_ifs <;> omega
  have hcond : 0 < effDim 4 (posClamped 3) cexBmp.w ∧ 0 < effDim H (posClamped 0) cexBmp.h := by
    rw [hew, heh]
    exact ⟨one_pos, one_pos⟩
  have hin : inRect H 4 cexBmp 3 0 0 3 0 := by
    refine ⟨by decide, ?_, by decide, ?_, by decide⟩
    · rw [heh]; decide
    · rw [hew]; decide
  simp only [overlayStep, if_pos hcond, if_pos hin]
  rw [if_neg (by rw [ovResized_channels]; decide)]
  show (ovResized H 4 cexBmp 3 0).px 0 0 0 = 100
  unfold ovResized
  rw [hew, heh]
  exact resize_cexBmp

/-- C9: when the clamp shrinks the placement rectangle at the right edge,
the code composites `cv2.resize(bitmap, (clamped_w, clamped_h))` — the
whole bitmap squashed to the clamped extent — and this differs from
cropping: for the 1×2 bitmap `[0, 200]` placed at `x = 3` on a width-4
frame the written pixel is the squashed value 100, whereas the cropping
alternative would write the top-left sample 0. -/
theorem overlay_shrink_squashes (H W : Nat) (frame : Image) (bmp : Bitmap) (x y : Int)
    (hx : 0 ≤ x) (hy : 0 ≤ y) (hxW : x < (W : Int)) (hover : (W : Int) < x + (bmp.w : Int))
    (hfy : y + (bmp.h : Int) ≤ (H : Int)) (hh : 0 < bmp.h) :
    effDim W (posClamped x) bmp.w = (W : Int) - x ∧
    (∀ r c ch, inRect H W bmp x y r c ch →
      overlayStep H W frame bmp x y r c ch =
        (if bmp.channels = 4 then
          blendPx (frame r c ch)
            ((resizeBilinear bmp ((W : Int) - x).toNat bmp.h).px (r - y.toNat) (c - x.toNat) ch)
            ((resizeBilinear bmp ((W : Int) - x).toNat bmp.h).px (r - y.toNat) (c - x.toNat) 3 / 255)
        else
          (resizeBilinear bmp ((W : Int) - x).toNat bmp.h).px (r - y.toNat) (c - x.toNat) ch)) ∧
    overlayStep 1 4 cexFrame cexBmp 3 0 0 3 0 = 100 ∧
    overlayStepCropped 1 4 cexFrame cexBmp 3 0 0 3 0 = 0 := by
  have hew : effDim W (posClamped x) bmp.w = (W : Int) - x := by
    rw [posClamped_of_nonneg hx]
    unfold effDim
    split_ifs <;> omega
  have heh : effDim H (posClamped y) bmp.h = (bmp.h : Int) := by
    rw [posClamped_of_nonneg hy]
    exact effDim_of_fit hfy
  refine ⟨hew, ?_, overlayStep_cexBmp 1 one_pos cexFrame, ?_⟩
  · intro r c ch hin
    have hcond : 0 < effDim W (posClamped x) bmp.w ∧ 0 < effDim H (posClamped y) bmp.h := by
      rw [hew, heh]
      exact ⟨by omega, by exact_mod_cast hh⟩
    simp only [overlayStep, if_pos hcond, if_pos hin, ovResized_channels]
    have hres : ovResized H W bmp x y = resizeBilinear bmp ((W : Int) - x).toNat bmp.h := by
      unfold ovResized
      rw [hew, heh, Int.toNat_natCast]
    have hry : (posClamped y).toNat = y.toNat := by rw [posClamped_of_nonneg hy]
    have hcx : (posClamped x).toNat = x.toNat := by rw [posClamped_of_nonneg hx]
    simp only [hres, hry, hcx]
  · have hcond : 0 < effDim 4 (posClamped 3) cexBmp.w ∧ 0 < effDim 1 (posClamped 0) cexBmp.h := by
      decide
    have hin : inRect 1 4 cexBmp 3 0 0 3 0 := by decide
    simp only [overlayStepCropped, if_pos hcond, if_pos hin]
    rw [if_neg (by decide)]
    rfl

/-- Witness for `overlay_shrink_squashes` at the concrete shrink
configuration of its own separation example. -/
theorem overlay_shrink_squashes_witness :
    effDim 4 (posClamped 3) cexBmp.w = (4 : Int) - 3 ∧
    overlayStep 1 4 cexFrame cexBmp 3 0 0 3 0 = 100 ∧
    overlayStepCropped 1 4 cexFrame cexBmp 3 0 0 3 0 = 0 := by
  have h := overlay_shrink_squashes 1 4 cexFrame cexBmp 3 0
    (by decide) (by decide) (by decide) (by decide) (by decide) (by decide)
  exact ⟨h.1, h.2.2.1, h.2.2.2⟩

/-! ### Export path versus frame-compositor transform -/

/-- C5 counterexample: the 1×2 bitmap `[0, 200]` placed at `(3, 0)` over
a black 12×4 frame with offset 0 overhangs the right edge; the
frame-compositor transform squashes it and writes 100 at pixel
`(0, 3)`, while the export composite (declarative layer model, which
crops at the frame edge) renders 0 there — the two paths do not agree on
every frame. -/
theorem clip_compositor_counterexample :
    (previewComposite 12 4 cexFrame 0 [(cexBmp, 3, 0)]).map (fun f => f 0 3 0) = some 100 ∧
    exportFrame 12 4 cexFrame 0 [(cexBmp, 3, 0)] 0 3 0 = 0 := by
  constructor
  · unfold previewComposite
    rw [movedFrame_eq 12 4 cexFrame 0 (by norm_num) le_rfl]
    simp only [Option.map_some', List.foldl_cons, List.foldl_nil]
    rw [overlayStep_cexBmp 12 (by norm_num)]
  · unfold exportFrame renderLayers
    rw [List.map_cons, List.map_nil, List.foldl_cons, List.foldl_cons, List.foldl_nil]
    unfold blit
    dsimp only
    rw [if_pos (show (0 : Nat) < 12 ∧ (3 : Nat) < 4 ∧ (0 : Nat) < 3 ∧ (0 : Int) ≤ ((0 : Nat) : Int) ∧
        ((0 : Nat) : Int) < 0 + (cexBmp.h : Int) ∧ (3 : Int) ≤ ((3 : Nat) : Int) ∧
        ((3 : Nat) : Int) < 3 + (cexBmp.w : Int) by decide)]
    rw [if_neg (show ¬ (Layer.mk cexBmp 3 0).bmp.channels = 4 by decide)]
    rfl

/-- Agreement of the preview overlay step and the declarative blit for an
in-bounds overlay, transported along pointwise agreement of the two
underlying images on the visible domain. -/
lemma overlayStep_blit_agree (H W : Nat) (f g : Image) (bmp : Bitmap) (x y : Int)
    (hint : IntValued bmp) (hw : 0 < bmp.w) (hh : 0 < bmp.h)
    (hx : 0 ≤ x) (hy : 0 ≤ y)
    (hfx : x + (bmp.w : Int) ≤ (W : Int)) (hfy : y + (bmp.h : Int) ≤ (H : Int))
    (hagree : ∀ r c ch, r < H → c < W → ch < 3 → f r c ch = g r c ch) :
    ∀ r c ch, r < H → c < W → ch < 3 →
      overlayStep H W f bmp x y r c ch = blit H W g (Layer.mk bmp x y) r c ch := by
  intro r c ch hr hc hch
  have e1 : posClamped y = y := posClamped_of_nonneg hy
  have e2 : posClamped x = x := posClamped_of_nonneg hx
  have f1 : (posClamped y).toNat = y.toNat := by rw [e1]
  have f2 : (posClamped x).toNat = x.toNat := by rw [e2]
  have f3 : (effDim H (posClamped y) bmp.h).toNat = bmp.h := by
    rw [e1, effDim_of_fit hfy, Int.toNat_natCast]
  have f4 : (effDim W (posClamped x) bmp.w).toNat = bmp.w := by
    rw [e2, effDim_of_fit hfx, Int.toNat_natCast]
  rw [overlayStep_fit H W f bmp x y hx hy hw hh hfx hfy hint r c ch]
  unfold blit
  dsimp only
  by_cases hin : inRect H W bmp x y r c ch
  · obtain ⟨h1, h2, h3, h4, h5⟩ := hin
    rw [if_pos (show inRect H W bmp x y r c ch from ⟨h1, h2, h3, h4, h5⟩),
      if_pos (show r < H ∧ c < W ∧ ch < 3 ∧ y ≤ (r : Int) ∧ (r : Int) < y + (bmp.h : Int) ∧
        x ≤ (c : Int) ∧ (c : Int) < x + (bmp.w : Int) from
        ⟨hr, hc, hch, by omega, by omega, by omega, by omega⟩)]
    have hrr : ((r : Int) - y).toNat = r - y.toNat := by omega
    have hcc : ((c : Int) - x).toNat = c - x.toNat := by omega
    rw [hrr, hcc, hagree r c ch hr hc hch]
    rfl
  · rw [if_neg hin, if_neg (fun hbc => ?_)]
    · exact hagree r c ch hr hc hch
    · obtain ⟨_, _, _, hb4, hb5, hb6, hb7⟩ := hbc
      exact hin ⟨by omega, by omega, by omega, by omega, hch⟩

/-- Rendering the shifted video layer over the black background matches
the shift step of the preview on the visible domain. -/
lemma blit_video_layer (H W : Nat) (frame : Image) (o : Int) (hH : 10 ≤ H) (ho : 0 ≤ o) :
    ∀ r c ch, r < H → c < W → ch < 3 →
      blit H W (fun _ _ _ => 0) (Layer.mk (Bitmap.mk H W 3 frame) 0 (clampedOffset H o)) r c ch =
        (if (clampedOffset H o).toNat ≤ r ∧ r < H ∧ c < W ∧ ch < 3 then
          frame (r - (clampedOffset H o).toNat) c ch
        else 0) := by
  intro r c ch hr hc hch
  have h0 := clampedOffset_nonneg H o hH ho
  have h1 := clampedOffset_le H o
  unfold blit
  dsimp only
  by_cases hb : clampedOffset H o ≤ (r : Int)
  · rw [if_pos ⟨hr, hc, hch, hb, by omega, by omega, by omega⟩,
      if_neg (by norm_num), if_pos ⟨by omega, hr, hc, hch⟩]
    have hrr : ((r : Int) - clampedOffset H o).toNat = r - (clampedOffset H o).toNat := by omega
    have hcc : ((c : Int) - 0).toNat = c := by omega
    rw [hrr, hcc]
  · rw [if_neg (fun hbc => hb hbc.2.2.2.1), if_neg (fun hbc => hb (by omega))]

/-- Pointwise agreement on the visible domain is preserved by running the
preview overlay chain on one side and the corresponding layer blits on
the other. -/
lemma fold_overlay_blit_agree (H W : Nat) :
    ∀ (ovs : List (Bitmap × Int × Int)) (f g : Image),
      (∀ ov ∈ ovs, IntValued ov.1 ∧ 0 < ov.1.w ∧ 0 < ov.1.h ∧
        0 ≤ ov.2.1 ∧ 0 ≤ ov.2.2 ∧ ov.2.1 + (ov.1.w : Int) ≤ (W : Int) ∧
        ov.2.2 + (ov.1.h : Int) ≤ (H : Int)) →
      (∀ r c ch, r < H → c < W → ch < 3 → f r c ch = g r c ch) →
      ∀ r c ch, r < H → c < W → ch < 3 →
        (ovs.foldl (fun fr ov => overlayStep H W fr ov.1 ov.2.1 ov.2.2) f) r c ch =
          ((ovs.map (fun ov => Layer.mk ov.1 ov.2.1 ov.2.2)).foldl (blit H W) g) r c ch := by
  intro ovs
  induction ovs with
  | nil => intro f g _ hagree; exact hagree
  | cons ov rest ih =>
    intro f g hovs hagree
    obtain ⟨hint, hw, hh, hx, hy, hfx, hfy⟩ := hovs ov (List.mem_cons_self ov rest)
    rw [List.map_cons, List.foldl_cons, List.foldl_cons]
    exact ih (overlayStep H W f ov.1 ov.2.1 ov.2.2) (blit H W g (Layer.mk ov.1 ov.2.1 ov.2.2))
      (fun o ho => hovs o (List.mem_cons_of_mem ov ho))
      (overlayStep_blit_agree H W f g ov.1 ov.2.1 ov.2.2 hint hw hh hx hy hfx hfy hagree)

/-- C5 (amended): when every overlay's placement rectangle lies fully
inside the frame (nonnegative position, rectangle within bounds, positive
extent, integer samples) and `H ≥ 10`, `o ≥ 0`, the export composite —
black background, video layer at `(0, min(o, H−10))`, one positioned
layer per overlay — renders every visible pixel equal to the
frame-compositor transform.  (Without the in-bounds condition the two
differ: see the counterexample, where the preview squashes an
edge-clamped overlay while the layer model crops it.) -/
theorem clip_compositor_equiv (H W : Nat) (frame : Image) (o : Int)
    (ovs : List (Bitmap × Int × Int)) (hH : 10 ≤ H) (ho : 0 ≤ o)
    (hovs : ∀ ov ∈ ovs, IntValued ov.1 ∧ 0 < ov.1.w ∧ 0 < ov.1.h ∧
      0 ≤ ov.2.1 ∧ 0 ≤ ov.2.2 ∧ ov.2.1 + (ov.1.w : Int) ≤ (W : Int) ∧
      ov.2.2 + (ov.1.h : Int) ≤ (H : Int)) :
    ∃ pf, previewComposite H W frame o ovs = some pf ∧
      ∀ r c ch, r < H → c < W → ch < 3 →
        exportFrame H W frame o ovs r c ch = pf r c ch := by
  refine ⟨_, by unfold previewComposite; rw [movedFrame_eq H W frame o hH ho]; rfl, ?_⟩
  intro r c ch hr hc hch
  unfold exportFrame renderLayers
  rw [List.foldl_cons]
  exact (fold_overlay_blit_agree H W ovs _ _ hovs
    (fun r c ch hr hc hch => (blit_video_layer H W frame o hH ho r c ch hr hc hch).symm)
    r c ch hr hc hch).symm

/-- Witness for `clip_compositor_equiv`: a fully in-bounds single-pixel
overlay at `(1, 2)` on a 12×4 black frame. -/
theorem clip_compositor_equiv_witness :
    ∃ pf, previewComposite 12 4 cexFrame 0 [(smallBmp, 1, 2)] = some pf ∧
      ∀ r c ch, r < 12 → c < 4 → ch < 3 →
        exportFrame 12 4 cexFrame 0 [(smallBmp, 1, 2)] r c ch = pf r c ch :=
  clip_compositor_equiv 12 4 cexFrame 0 [(smallBmp, 1, 2)] (by norm_num) le_rfl
    (fun ov hov => by
      rw [List.mem_singleton] at hov
      subst hov
      exact ⟨fun _ _ _ => ⟨9, by norm_num [smallBmp]⟩, by decide, by decide, by decide, by decide,
        by decide, by decide⟩)

/-! ### Batch loop lemmas -/

lemma runItems_noStop (stopAt ok : Nat → Bool) (fpsOf : Nat → ℚ) (d : String)
    (total : Nat) (hstop : ∀ i, stopAt i = false) :
    ∀ (fs : List String) (idx : Nat),
      runItems stopAt ok fpsOf d total idx fs =
        chunksFrom ok fpsOf d total idx fs ++
          [BatchEvent.progress 100, BatchEvent.finished total] := by
  intro fs
  induction fs with
  | nil => intro idx; rfl
  | cons f rest ih =>
    intro idx
    show (if stopAt idx then _ else _) = _
    rw [hstop idx]
    show itemChunk ok fpsOf d total idx f ++ runItems stopAt ok fpsOf d total (idx + 1) rest = _
    rw [ih (idx + 1)]
    show _ = (itemChunk ok fpsOf d total idx f ++ chunksFrom ok fpsOf d total (idx + 1) rest) ++ _
    rw [List.append_assoc]

lemma runItems_stop (stopAt ok : Nat → Bool) (fpsOf : Nat → ℚ) (d : String) (total : Nat) :
    ∀ (j : Nat) (fs : List String) (idx : Nat),
      j < fs.length →
      (∀ i, i < j → stopAt (idx + i) = false) →
      stopAt (idx + j) = true →
      runItems stopAt ok fpsOf d total idx fs =
        chunksFrom ok fpsOf d total idx (fs.take j) ++ [BatchEvent.cancelled] := by
  intro j
  induction j with
  | zero =>
    intro fs idx hlen hbefore hstop
    cases fs with
    | nil => simp at hlen
    | cons f rest =>
      rw [Nat.add_zero] at hstop
      show (if stopAt idx then _ else _) = _
      rw [hstop]
      rfl
  | succ j ih =>
    intro fs idx hlen hbefore hstop
    cases fs with
    | nil => simp at hlen
    | cons f rest =>
      have h0 : stopAt idx = false := by
        have := hbefore 0 (by omega)
        rwa [Nat.add_zero] at this
      show (if stopAt idx then _ else _) = _
      rw [h0]
      show itemChunk ok fpsOf d total idx f ++ runItems stopAt ok fpsOf d total (idx + 1) rest = _
      rw [ih rest (idx + 1) (by simpa using hlen)
        (fun i hi => by
          have := hbefore (i + 1) (by omega)
          rwa [show idx + (i + 1) = idx + 1 + i by omega] at this)
        (by
          have := hstop
          rwa [show idx + (j + 1) = idx + 1 + j by omega] at this)]
      rw [List.take_succ_cons]
      show _ = (itemChunk ok fpsOf d total idx f ++ chunksFrom ok fpsOf d total (idx + 1) (rest.take j)) ++ _
      rw [List.append_assoc]

lemma writesOf_append (l1 l2 : List BatchEvent) :
    writesOf (l1 ++ l2) = writesOf l1 ++ writesOf l2 :=
  List.filterMap_append l1 l2 _

lemma progressOf_append (l1 l2 : List BatchEvent) :
    progressOf (l1 ++ l2) = progressOf l1 ++ progressOf l2 :=
  List.filterMap_append l1 l2 _

lemma writesOf_chunksFrom (ok : Nat → Bool) (fpsOf : Nat → ℚ) (d : String) (total : Nat) :
    ∀ (fs : List String) (idx : Nat),
      writesOf (chunksFrom ok fpsOf d total idx fs) = expectedWrites ok fpsOf d idx fs := by
  intro fs
  induction fs with
  | nil => intro idx; rfl
  | cons f rest ih =>
    intro idx
    show writesOf (itemChunk ok fpsOf d total idx f ++ chunksFrom ok fpsOf d total (idx + 1) rest) = _
    rw [writesOf_append, ih (idx + 1)]
    show _ = (if ok idx then [WriteCall.mk (outputPath d f) "libx264" "aac" (fpsOf idx)] else []) ++
      expectedWrites ok fpsOf d (idx + 1) rest
    congr 1
    unfold itemChunk writesOf
    by_cases h : ok idx
    · rw [if_pos h, if_pos h]
      rfl
    · rw [if_neg h, if_neg h]
      rfl

lemma progressOf_chunksFrom (ok : Nat → Bool) (fpsOf : Nat → ℚ) (d : String) (total : Nat) :
    ∀ (fs : List String) (idx : Nat),
      progressOf (chunksFrom ok fpsOf d total idx fs) =
        (List.range fs.length).map (fun k => (idx + k) * 100 / total) := by
  intro fs
  induction fs with
  | nil => intro idx; rfl
  | cons f rest ih =>
    intro idx
    show progressOf (itemChunk ok fpsOf d total idx f ++
      chunksFrom ok fpsOf d total (idx + 1) rest) = _
    rw [progressOf_append, ih (idx + 1), List.length_cons, List.range_succ_eq_map,
      List.map_cons, List.map_map]
    have h1 : progressOf (itemChunk ok fpsOf d total idx f) = [idx * 100 / total] := by
      unfold itemChunk progressOf
      by_cases h : ok idx
      · rw [if_pos h]
        rfl
      · rw [if_neg h]
        rfl
    rw [h1]
    show (idx * 100 / total) :: (List.range rest.length).map (fun k => (idx + 1 + k) * 100 / total) =
      ((idx + 0) * 100 / total) ::
        (List.range rest.length).map ((fun k => (idx + k) * 100 / total) ∘ Nat.succ)
    rw [Nat.add_zero]
    congr 1
    exact List.map_congr_left (fun a _ => by
      show (idx + 1 + a) * 100 / total = (idx + (a + 1)) * 100 / total
      congr 1
      omega)

lemma finished_not_mem_chunksFrom (ok : Nat → Bool) (fpsOf : Nat → ℚ) (d : String)
    (total : Nat) :
    ∀ (fs : List String) (idx n : Nat),
      BatchEvent.finished n ∉ chunksFrom ok fpsOf d total idx fs := by
  intro fs
  induction fs with
  | nil => intro idx n h; simp [chunksFrom] at h
  | cons f rest ih =>
    intro idx n h
    rw [show chunksFrom ok fpsOf d total idx (f :: rest) =
      itemChunk ok fpsOf d total idx f ++ chunksFrom ok fpsOf d total (idx + 1) rest from rfl,
      List.mem_append] at h
    rcases h with h | h
    · unfold itemChunk at h
      by_cases hok : ok idx
      · rw [if_pos hok] at h
        simp at h
      · rw [if_neg hok] at h
        simp at h
    · exact ih (idx + 1) n h

lemma itemError_mem_chunksFrom (ok : Nat → Bool) (fpsOf : Nat → ℚ) (d : String)
    (total : Nat) :
    ∀ (fs : List String) (idx k : Nat), k < fs.length → ok (idx + k) = false →
      BatchEvent.itemError (basename (fs.getD k "")) ∈
        chunksFrom ok fpsOf d total idx fs := by
  intro fs
  induction fs with
  | nil => intro idx k hk; simp at hk
  | cons f rest ih =>
    intro idx k hk hok
    rw [show chunksFrom ok fpsOf d total idx (f :: rest) =
      itemChunk ok fpsOf d total idx f ++ chunksFrom ok fpsOf d total (idx + 1) rest from rfl,
      List.mem_append]
    cases k with
    | zero =>
      left
      rw [Nat.add_zero] at hok
      unfold itemChunk
      rw [if_neg (by rw [hok]; exact Bool.false_ne_true)]
      simp [List.getD]
    | succ k =>
      right
      have := ih (idx + 1) k (by simpa using hk)
        (by rwa [show idx + 1 + k = idx + (k + 1) by omega])
      simpa [List.getD] using this

lemma wrote_mem_chunksFrom (ok : Nat → Bool) (fpsOf : Nat → ℚ) (d : String)
    (total : Nat) :
    ∀ (fs : List String) (idx k : Nat), k < fs.length → ok (idx + k) = true →
      BatchEvent.wrote (WriteCall.mk (outputPath d (fs.getD k "")) "libx264" "aac"
        (fpsOf (idx + k))) ∈ chunksFrom ok fpsOf d total idx fs := by
  intro fs
  induction fs with
  | nil => intro idx k hk; simp at hk
  | cons f rest ih =>
    intro idx k hk hok
    rw [show chunksFrom ok fpsOf d total idx (f :: rest) =
      itemChunk ok fpsOf d total idx f ++ chunksFrom ok fpsOf d total (idx + 1) rest from rfl,
      List.mem_append]
    cases k with
    | zero =>
      left
      rw [Nat.add_zero] at hok ⊢
      unfold itemChunk
      rw [if_pos hok]
      simp [List.getD]
    | succ k =>
      right
      have := ih (idx + 1) k (by simpa using hk)
        (by rwa [show idx + 1 + k = idx + (k + 1) by omega])
      rw [show idx + 1 + k = idx + (k + 1) by omega] at this
      simpa [List.getD] using this

lemma processVideos_run (files : List String) (d : String) (stopAt ok : Nat → Bool)
    (fpsOf : Nat → ℚ) (hne : files ≠ []) :
    processVideos files (some d) stopAt ok fpsOf =
      runItems stopAt ok fpsOf d files.length 0 files := by
  unfold processVideos
  rw [if_neg (fun h => hne (List.isEmpty_iff.mp h))]

/-- C6: partial-failure batch semantics — with no cancellation, every
failing item is logged with its basename, every succeeding item produces
its write, the progress sequence is `int(idx/N*100)` for each 0-based
index followed by the forced 100, and the final event is the summary
naming all `N` attempted. -/
theorem batch_partial_failure (files : List String) (d : String)
    (stopAt ok : Nat → Bool) (fpsOf : Nat → ℚ)
    (hne : files ≠ []) (hstop : ∀ i, stopAt i = false) :
    (∀ k, k < files.length → ok k = false →
      BatchEvent.itemError (basename (files.getD k "")) ∈
        processVideos files (some d) stopAt ok fpsOf) ∧
    (∀ k, k < files.length → ok k = true →
      BatchEvent.wrote (WriteCall.mk (outputPath d (files.getD k "")) "libx264" "aac"
        (fpsOf k)) ∈ processVideos files (some d) stopAt ok fpsOf) ∧
    progressOf (processVideos files (some d) stopAt ok fpsOf) =
      (List.range files.length).map (fun k => k * 100 / files.length) ++ [100] ∧
    (processVideos files (some d) stopAt ok fpsOf).getLast? =
      some (BatchEvent.finished files.length) := by
  rw [processVideos_run files d stopAt ok fpsOf hne,
    runItems_noStop stopAt ok fpsOf d files.length hstop files 0]
  refine ⟨?_, ?_, ?_, ?_⟩
  · intro k hk hok
    rw [List.mem_append]
    exact Or.inl (itemError_mem_chunksFrom ok fpsOf d files.length files 0 k hk
      (by rwa [Nat.zero_add]))
  · intro k hk hok
    rw [List.mem_append]
    have h := wrote_mem_chunksFrom ok fpsOf d files.length files 0 k hk
      (by rwa [Nat.zero_add])
    rw [Nat.zero_add] at h
    exact Or.inl h
  · rw [progressOf_append, progressOf_chunksFrom ok fpsOf d files.length files 0]
    congr 1
    exact List.map_congr_left (fun a _ => by rw [Nat.zero_add])
  · rw [show chunksFrom ok fpsOf d files.length 0 files ++
      [BatchEvent.progress 100, BatchEvent.finished files.length] =
      (chunksFrom ok fpsOf d files.length 0 files ++ [BatchEvent.progress 100]) ++
        [BatchEvent.finished files.length] from by rw [List.append_assoc]; rfl]
    exact List.getLast?_concat _

/-- Witness for `batch_partial_failure`: two files where the second item
fails — its error log with the file name is among the emitted events. -/
theorem batch_partial_failure_witness :
    BatchEvent.itemError (basename (["a.mp4", "b.mp4"].getD 1 "")) ∈
      processVideos ["a.mp4", "b.mp4"] (some "out") (fun _ => false)
        (fun k => k == 0) (fun _ => 30) :=
  (batch_partial_failure ["a.mp4", "b.mp4"] "out" (fun _ => false) (fun k => k == 0)
    (fun _ => 30) (List.cons_ne_nil _ _) (fun _ => rfl)).1 1 (by norm_num) rfl

/-- C7: cooperative cancellation — once the flag is observed at the poll
before item `k`, the events are exactly those of the first `k` items
followed by the cancellation report: the cancellation message is present
and terminal, the completion summary is never emitted, the writes are
exactly those of the completed first `k` items, and no progress beyond
item `k-1`'s is reported. -/
theorem batch_cancellation (files : List String) (d : String)
    (stopAt ok : Nat → Bool) (fpsOf : Nat → ℚ) (k : Nat)
    (hk : k < files.length) (hstopk : stopAt k = true)
    (hbefore : ∀ i, i < k → stopAt i = false) :
    BatchEvent.cancelled ∈ processVideos files (some d) stopAt ok fpsOf ∧
    (processVideos files (some d) stopAt ok fpsOf).getLast? = some BatchEvent.cancelled ∧
    (∀ n, BatchEvent.finished n ∉ processVideos files (some d) stopAt ok fpsOf) ∧
    writesOf (processVideos files (some d) stopAt ok fpsOf) =
      expectedWrites ok fpsOf d 0 (files.take k) ∧
    progressOf (processVideos files (some d) stopAt ok fpsOf) =
      (List.range k).map (fun i => i * 100 / files.length) := by
  have hne : files ≠ [] := by
    intro h
    rw [h] at hk
    simp at hk
  rw [processVideos_run files d stopAt ok fpsOf hne,
    runItems_stop stopAt ok fpsOf d files.length k files 0 hk
      (fun i hi => by rw [Nat.zero_add]; exact hbefore i hi)
      (by rw [Nat.zero_add]; exact hstopk)]
  refine ⟨?_, ?_, ?_, ?_, ?_⟩
  · rw [List.mem_append]
    exact Or.inr (List.mem_singleton.mpr rfl)
  · exact List.getLast?_concat _
  · intro n h
    rw [List.mem_append] at h
    rcases h with h | h
    · exact finished_not_mem_chunksFrom ok fpsOf d files.length (files.take k) 0 n h
    · simp at h
  · rw [writesOf_append, writesOf_chunksFrom ok fpsOf d files.length (files.take k) 0]
    show expectedWrites ok fpsOf d 0 (files.take k) ++ [] = _
    rw [List.append_nil]
  · rw [progressOf_append, progressOf_chunksFrom ok fpsOf d files.length (files.take k) 0]
    show (List.range (files.take k).length).map (fun i => (0 + i) * 100 / files.length) ++ [] = _
    rw [List.append_nil, List.length_take, show min k files.length = k from by omega]
    exact List.map_congr_left (fun a _ => by rw [Nat.zero_add])

/-- Witness for `batch_cancellation`: three files with the flag observed
before item 1 — the cancellation event is among the emitted events. -/
theorem batch_cancellation_witness :
    BatchEvent.cancelled ∈ processVideos ["a.mp4", "b.mp4", "c.mp4"] (some "out")
      (fun i => i == 1) (fun _ => true) (fun _ => 30) :=
  (batch_cancellation ["a.mp4", "b.mp4", "c.mp4"] "out" (fun i => i == 1)
    (fun _ => true) (fun _ => 30) 1 (by norm_num) rfl
    (fun i hi => by
      have h0 : i = 0 := by omega
      subst h0
      rfl)).1

/-! ### Output naming lemmas -/

lemma expectedWrites_allOk (ok : Nat → Bool) (fpsOf : Nat → ℚ) (d : String)
    (hok : ∀ i, ok i = true) :
    ∀ (fs : List String) (idx : Nat),
      expectedWrites ok fpsOf d idx fs =
        (List.range fs.length).map (fun k =>
          WriteCall.mk (outputPath d (fs.getD k "")) "libx264" "aac" (fpsOf (idx + k))) := by
  intro fs
  induction fs with
  | nil => intro idx; rfl
  | cons f rest ih =>
    intro idx
    show (if ok idx then [WriteCall.mk (outputPath d f) "libx264" "aac" (fpsOf idx)] else []) ++
      expectedWrites ok fpsOf d (idx + 1) rest = _
    rw [if_pos (hok idx), ih (idx + 1), List.length_cons, List.range_succ_eq_map,
      List.map_cons, List.map_map]
    show WriteCall.mk (outputPath d f) "libx264" "aac" (fpsOf idx) ::
        (List.range rest.length).map (fun k =>
          WriteCall.mk (outputPath d (rest.getD k "")) "libx264" "aac" (fpsOf (idx + 1 + k))) =
      WriteCall.mk (outputPath d f) "libx264" "aac" (fpsOf (idx + 0)) ::
        (List.range rest.length).map ((fun k =>
          WriteCall.mk (outputPath d ((f :: rest).getD k "")) "libx264" "aac" (fpsOf (idx + k))) ∘
            Nat.succ)
    rw [Nat.add_zero]
    congr 1
    exact List.map_congr_left (fun a _ => by
      show WriteCall.mk (outputPath d (rest.getD a "")) "libx264" "aac" (fpsOf (idx + 1 + a)) =
        WriteCall.mk (outputPath d (rest.getD a "")) "libx264" "aac" (fpsOf (idx + (a + 1)))
      rw [show idx + 1 + a = idx + (a + 1) by omega])

lemma lastDotIdx_append (xs ys : List Char) :
    lastDotIdx (xs ++ ys) =
      (match lastDotIdx ys with
       | some j => some (xs.length + j)
       | none => lastDotIdx xs) := by
  induction xs with
  | nil =>
    cases h : lastDotIdx ys with
    | some j => simp [h]
    | none => simp [h, lastDotIdx]
  | cons c cs ih =>
    rw [List.cons_append]
    show (match lastDotIdx (cs ++ ys) with
          | some i => some (i + 1)
          | none => if c = '.' then some 0 else none) = _
    rw [ih]
    cases h : lastDotIdx ys with
    | some j =>
      show some (cs.length + j + 1) = some ((c :: cs).length + j)
      rw [List.length_cons]
      congr 1
      omega
    | none => rfl

lemma lastDotIdx_lt (cs : List Char) (i : Nat) (h : lastDotIdx cs = some i) :
    i < cs.length := by
  induction cs generalizing i with
  | nil => simp [lastDotIdx] at h
  | cons c cs ih =>
    unfold lastDotIdx at h
    cases h2 : lastDotIdx cs with
    | some j =>
      rw [h2] at h
      injection h with h
      have := ih j h2
      rw [List.length_cons]
      omega
    | none =>
      rw [h2] at h
      split_ifs at h
      · injection h with h
        rw [List.length_cons]
        omega

lemma lastDotIdx_drop (cs : List Char) (i : Nat) (h : lastDotIdx cs = some i) :
    lastDotIdx (cs.drop i) = some 0 := by
  induction cs generalizing i with
  | nil => simp [lastDotIdx] at h
  | cons c cs ih =>
    unfold lastDotIdx at h
    cases h2 : lastDotIdx cs with
    | some j =>
      rw [h2] at h
      injection h with h
      subst h
      exact ih j h2
    | none =>
      rw [h2] at h
      split_ifs at h with hc
      · injection h with h
        subst h
        show lastDotIdx (c :: cs) = some 0
        unfold lastDotIdx
        rw [h2, if_pos hc]

lemma splitextL_eq_none {cs : List Char} (h : lastDotIdx cs = none) :
    splitextL cs = (cs, []) := by
  unfold splitextL
  rw [h]

lemma splitextL_eq_some {cs : List Char} {i : Nat} (h : lastDotIdx cs = some i) :
    splitextL cs =
      if (cs.take i).all (fun c => c = '.') then (cs, []) else (cs.take i, cs.drop i) := by
  unfold splitextL
  rw [h]

lemma splitextL_processed (cs ps : List Char)
    (hps : lastDotIdx ps = none) (hnd : ps.all (fun c => c = '.') = false) :
    splitextL ((splitextL cs).1 ++ ps ++ (splitextL cs).2) =
      ((splitextL cs).1 ++ ps, (splitextL cs).2) := by
  cases h : lastDotIdx cs with
  | none =>
    rw [splitextL_eq_none h]
    show splitextL (cs ++ ps ++ []) = (cs ++ ps, [])
    rw [List.append_nil,
      splitextL_eq_none (show lastDotIdx (cs ++ ps) = none from by
        rw [lastDotIdx_append cs ps, hps]
        exact h)]
  | some i =>
    have hlt := lastDotIdx_lt cs i h
    rw [splitextL_eq_some h]
    by_cases hall : ((cs.take i).all fun c => c = '.') = true
    · rw [if_pos hall]
      show splitextL (cs ++ ps ++ []) = (cs ++ ps, [])
      rw [List.append_nil]
      have hd : lastDotIdx (cs ++ ps) = some i := by
        rw [lastDotIdx_append cs ps, hps]
        exact h
      rw [splitextL_eq_some hd,
        if_pos (show ((cs ++ ps).take i).all (fun c => c = '.') = true from by
          rw [List.take_append_of_le_length (by omega)]
          exact hall)]
    · rw [if_neg hall]
      have hlen : (cs.take i).length = i := by
        rw [List.length_take]
        omega
      have hplen : (cs.take i ++ ps).length = i + ps.length := by
        rw [List.length_append, hlen]
      have hd : lastDotIdx (cs.take i ++ ps ++ cs.drop i) = some (i + ps.length) := by
        rw [List.append_assoc, lastDotIdx_append (cs.take i) (ps ++ cs.drop i),
          lastDotIdx_append ps (cs.drop i), lastDotIdx_drop cs i h]
        show some ((cs.take i).length + (ps.length + 0)) = some (i + ps.length)
        rw [hlen]
        simp
      have htake : (cs.take i ++ ps ++ cs.drop i).take (i + ps.length) = cs.take i ++ ps := by
        rw [← hplen]
        exact List.take_left _ _
      have hdrop : (cs.take i ++ ps ++ cs.drop i).drop (i + ps.length) = cs.drop i := by
        rw [← hplen]
        exact List.drop_left _ _
      rw [splitextL_eq_some hd,
        if_neg (show ¬ (((cs.take i ++ ps ++ cs.drop i).take (i + ps.length)).all
            fun c => c = '.') = true from by
          rw [htake, List.all_append, hnd, Bool.and_false]
          exact Bool.false_ne_true),
        htake, hdrop]

/-- Appending `_processed` to the stem of a split file name leaves the
extension that `splitext` recovers unchanged. -/
lemma splitext_processed (b : String) :
    splitext ((splitext b).1 ++ "_processed" ++ (splitext b).2) =
      ((splitext b).1 ++ "_processed", (splitext b).2) := by
  have hdata : ((splitext b).1 ++ "_processed" ++ (splitext b).2).toList =
      (splitextL b.toList).1 ++ "_processed".toList ++ (splitextL b.toList).2 := by
    show ((splitext b).1 ++ "_processed" ++ (splitext b).2).data = _
    rw [String.data_append, String.data_append]
    rfl
  show (String.mk (splitextL ((splitext b).1 ++ "_processed" ++ (splitext b).2).toList).1,
        String.mk (splitextL ((splitext b).1 ++ "_processed" ++ (splitext b).2).toList).2) =
    ((splitext b).1 ++ "_processed", (splitext b).2)
  rw [hdata, splitextL_processed b.toList "_processed".toList (by decide) (by decide)]
  rfl

/-- C8: write-step contract — with every item succeeding, exactly one
write per input is performed, in order, into the caller-supplied output
directory, at the source clip's frame rate; the output file name is
`<stem>_processed<ext>` of the input's basename, so the source extension
(and with it the container) is reused: splitting the output name recovers
exactly the source extension. -/
theorem write_step_contract (files : List String) (d : String)
    (stopAt ok : Nat → Bool) (fpsOf : Nat → ℚ)
    (hne : files ≠ []) (hstop : ∀ i, stopAt i = false) (hok : ∀ i, ok i = true) :
    writesOf (processVideos files (some d) stopAt ok fpsOf) =
      (List.range files.length).map (fun k =>
        WriteCall.mk (outputPath d (files.getD k "")) "libx264" "aac" (fpsOf k)) ∧
    (∀ f, outputPath d f =
      d ++ "/" ++ ((splitext (basename f)).1 ++ "_processed" ++ (splitext (basename f)).2)) ∧
    (∀ f, splitext (outputFileName f) =
      ((splitext (basename f)).1 ++ "_processed", (splitext (basename f)).2)) := by
  refine ⟨?_, fun f => rfl, fun f => splitext_processed (basename f)⟩
  rw [processVideos_run files d stopAt ok fpsOf hne,
    runItems_noStop stopAt ok fpsOf d files.length hstop files 0,
    writesOf_append, writesOf_chunksFrom ok fpsOf d files.length files 0,
    expectedWrites_allOk ok fpsOf d hok files 0]
  show _ ++ writesOf [BatchEvent.progress 100, BatchEvent.finished files.length] = _
  rw [show writesOf [BatchEvent.progress 100, BatchEvent.finished files.length] = [] from rfl,
    List.append_nil]
  exact List.map_congr_left (fun a _ => by rw [Nat.zero_add])

/-- Witness for `write_step_contract`: a single input `movie.mp4`
processed successfully produces exactly the one write
`out/movie_processed.mp4` at 24 fps, and splitting the produced name
recovers the source extension `.mp4`. -/
theorem write_step_contract_witness :
    writesOf (processVideos ["movie.mp4"] (some "out") (fun _ => false) (fun _ => true)
        (fun _ => 24)) =
      (List.range 1).map (fun k =>
        WriteCall.mk (outputPath "out" (["movie.mp4"].getD k "")) "libx264" "aac" 24) ∧
    splitext (outputFileName "movie.mp4") =
      ((splitext (basename "movie.mp4")).1 ++ "_processed",
        (splitext (basename "movie.mp4")).2) := by
  have h := write_step_contract ["movie.mp4"] "out" (fun _ => false) (fun _ => true)
    (fun _ => 24) (List.cons_ne_nil _ _) (fun _ => rfl) (fun _ => rfl)
  exact ⟨h.1, h.2.2 "movie.mp4"⟩

end VideoEditor
